import Mathlib

/-!
Shallow embedding of the indicator computation engine of the FinData-Backup
repository (`src/yhfinance/analytics/indicators.py`), together with theorems
settling the specification claims about it.

Conventions of the embedding:
* Machine floats are modelled by exact rationals (`ℚ`); the spec asks its
  recurrences to hold "within floating tolerance", which the exact rational
  recurrence witnesses.  The two places where IEEE special values are
  observable (pandas `NaN` for undefined cells, the `x / 0` behaviour inside
  the RSI quotient) are modelled explicitly: an undefined cell is `none` of
  `Option ℚ`, and the RSI quotient is case-split exactly as IEEE arithmetic
  evaluates it on the reachable (nonnegative) inputs.
* A pandas column over a frame with `n` rows is a function `ℕ → Option ℚ`;
  theorems about it only ever quantify over row indices `t < n`.
* Fallible computations (`iloc` / numpy out-of-bounds assignments raise
  `IndexError`) are modelled with `Except Unit`.
-/

namespace FinData

/-- One OHLC row of the input frame (the fields the indicator engine reads). -/
structure Bar where
  high  : ℚ
  low   : ℚ
  close : ℚ
deriving DecidableEq, Repr

/-- An input series: ordered rows of the frame (tick keys are the positions). -/
abbrev OHLC := List Bar

/-- High of row `t`, when the row exists. -/
def highAt (s : OHLC) (t : ℕ) : Option ℚ := (s.get? t).map Bar.high

/-- Low of row `t`, when the row exists. -/
def lowAt (s : OHLC) (t : ℕ) : Option ℚ := (s.get? t).map Bar.low

/-- Close of row `t`, when the row exists. -/
def closeAt (s : OHLC) (t : ℕ) : Option ℚ := (s.get? t).map Bar.close

/-- Total version of `highAt` (junk value `0` outside the frame; only read
in-range by the theorems). -/
def highQ (s : OHLC) (t : ℕ) : ℚ := (highAt s t).getD 0

/-- Total version of `lowAt`. -/
def lowQ (s : OHLC) (t : ℕ) : ℚ := (lowAt s t).getD 0

/-- Total version of `closeAt`. -/
def closeQ (s : OHLC) (t : ℕ) : ℚ := (closeAt s t).getD 0

/-- Modelled from the spec: `OHLCInterProcessor` (`analytics/ohlc_processor.py`)
is not present under `src/`.  Per spec §4.2, `shift(column, -1)` puts at row `t`
the value of row `t - 1`, undefined for the first row.  `prevClose` is the
shifted close column used by True Range and the close-return gain/loss. -/
def prevClose (s : OHLC) (t : ℕ) : Option ℚ :=
  match t with
  | 0 => none
  | u + 1 => closeAt s u

/-- Modelled from the spec: the close-return delta (`add_close_return`), spec
§4.2: `delta = current − shifted`; undefined where the shifted value is. -/
def closeDelta (s : OHLC) (t : ℕ) : Option ℚ :=
  (closeAt s t).bind fun c => (prevClose s t).map fun cp => c - cp

/-- Gain column feeding the RSI family: `ups = gl.apply(lambda x: max(x, 0))`
(`_IndRSI._get_gl_for_rsi`); `max(nan, 0)` stays NaN, i.e. undefined. -/
def gainAt (s : OHLC) (t : ℕ) : Option ℚ :=
  (closeDelta s t).map fun d => max d 0

/-- Loss column feeding the RSI family: `dns = gl.apply(lambda x: -min(x, 0))`. -/
def lossAt (s : OHLC) (t : ℕ) : Option ℚ :=
  (closeDelta s t).map fun d => -(min d 0)

/-- True Range column (`IndTrueRange._calc`):
`TR = max[(H-L), abs(H-Cp), abs(L-Cp)]` where `Cp` is the shifted close.
Row 0 carries no previous close and the merged column is undefined there
(spec §4.5; the row pairing itself is spec-modelled, see `prevClose`). -/
def trueRange (s : OHLC) (t : ℕ) : Option ℚ :=
  (highAt s t).bind fun h =>
    (lowAt s t).bind fun l =>
      (prevClose s t).map fun cp => max (h - l) (max |h - cp| |l - cp|)

/-- Total version of `trueRange` (junk `0` where undefined). -/
def trQ (s : OHLC) (t : ℕ) : ℚ := (trueRange s t).getD 0

/-- Total version of `gainAt`. -/
def gainQ (s : OHLC) (t : ℕ) : ℚ := (gainAt s t).getD 0

/-- Total version of `lossAt`. -/
def lossQ (s : OHLC) (t : ℕ) : ℚ := (lossAt s t).getD 0

/-- Seed of a Wilder-style recurrence: `x.iloc[:p].mean()` — the pandas mean
skips undefined cells and divides by the count of defined ones; the mean of an
all-undefined window is itself undefined. -/
def seedMean (x : ℕ → Option ℚ) (p : ℕ) : Option ℚ :=
  let vals := (List.range p).filterMap x
  if vals.isEmpty then none else some (vals.sum / (vals.length : ℚ))

/-- Tail of the Wilder smoothed moving average after the seed row: the value at
row `p + k`.  Models `ewm(alpha=1/p, ignore_na=True, adjust=False).mean()`
applied to a series that is undefined strictly below `p` (the code overwrites
`iloc[p]` with the seed and `iloc[:p]` with NA): the first defined value starts
the recurrence, an undefined input cell carries the previous output forward. -/
def smmaTail (x : ℕ → Option ℚ) (p : ℕ) : ℕ → Option ℚ
  | 0 => seedMean x p
  | k + 1 =>
    match smmaTail x p k, x (p + k + 1) with
    | none, none => none
    | none, some v => some v
    | some prev, none => some prev
    | some prev, some v => some ((1 - 1 / (p : ℚ)) * prev + (1 / (p : ℚ)) * v)

/-- Wilder smoothed moving average column with period `p` of input column `x`:
undefined strictly below row `p`, seeded at row `p`, recurrent afterwards
(`IndWilderRSI._calc` / `IndAvgTrueRange._calc`). -/
def wilderSMMA (x : ℕ → Option ℚ) (p : ℕ) (t : ℕ) : Option ℚ :=
  if t < p then none else smmaTail x p (t - p)

/-- Plain exponential moving average `ewm(alpha=a, adjust=False).mean()`
(`IndEmaRSI._calc`): no seeding, the first defined input value starts the
recurrence; an undefined input cell carries the previous output forward. -/
def emaAlpha (x : ℕ → Option ℚ) (a : ℚ) : ℕ → Option ℚ
  | 0 => x 0
  | t + 1 =>
    match emaAlpha x a t, x (t + 1) with
    | none, v => v
    | some prev, none => some prev
    | some prev, some v => some ((1 - a) * prev + a * v)

/-- Rolling mean `x.rolling(p).mean()` (`IndCutlerRSI._calc`): undefined until a
full window of `p` rows exists, and undefined whenever the window contains an
undefined cell (pandas default `min_periods = window`). -/
def rollingMean (x : ℕ → Option ℚ) (p : ℕ) (t : ℕ) : Option ℚ :=
  if t + 1 < p then none
  else
    let w := (List.range p).map fun j => x (t + 1 - p + j)
    if w.all Option.isSome then some ((w.filterMap id).sum / (p : ℚ)) else none

/-- Average True Range column (`IndAvgTrueRange._calc`): the Wilder SMMA of the
True Range column. -/
def avgTrueRange (s : OHLC) (p : ℕ) : ℕ → Option ℚ :=
  wilderSMMA (trueRange s) p

/-- Average-gain column of Wilder's RSI. -/
def wilderAvgGain (s : OHLC) (p : ℕ) : ℕ → Option ℚ := wilderSMMA (gainAt s) p

/-- Average-loss column of Wilder's RSI. -/
def wilderAvgLoss (s : OHLC) (p : ℕ) : ℕ → Option ℚ := wilderSMMA (lossAt s) p

/-- Average-gain column of the EMA-based RSI (`alpha = 1 / period`). -/
def emaAvgGain (s : OHLC) (p : ℕ) : ℕ → Option ℚ :=
  emaAlpha (gainAt s) (1 / (p : ℚ))

/-- Average-loss column of the EMA-based RSI. -/
def emaAvgLoss (s : OHLC) (p : ℕ) : ℕ → Option ℚ :=
  emaAlpha (lossAt s) (1 / (p : ℚ))

/-- Average-gain column of Cutler's RSI (simple rolling mean). -/
def cutlerAvgGain (s : OHLC) (p : ℕ) : ℕ → Option ℚ := rollingMean (gainAt s) p

/-- Average-loss column of Cutler's RSI. -/
def cutlerAvgLoss (s : OHLC) (p : ℕ) : ℕ → Option ℚ := rollingMean (lossAt s) p

/-- RSI cell from the average-gain and average-loss cells
(`_IndRSI._assign_rsi_result`): `RSI = 100 - 100 / (1 + ups / dns)` evaluated in
IEEE float arithmetic.  On the reachable inputs (both averages nonnegative):
with `dns > 0` this is the exact quotient formula; with `dns = 0 < ups` the
float quotient is `+inf` and the expression collapses to `100`; with
`ups = dns = 0` the float quotient is `0.0 / 0.0 = NaN`, so the cell is
undefined.  An undefined input cell makes the result undefined. -/
def rsiFrom (u d : Option ℚ) : Option ℚ :=
  match u, d with
  | some uv, some dv =>
    if dv = 0 then (if uv = 0 then none else some 100)
    else some (100 - 100 / (1 + uv / dv))
  | _, _ => none

/-- Wilder RSI column. -/
def wilderRSI (s : OHLC) (p : ℕ) (t : ℕ) : Option ℚ :=
  rsiFrom (wilderAvgGain s p t) (wilderAvgLoss s p t)

/-- EMA-based RSI column. -/
def emaRSI (s : OHLC) (p : ℕ) (t : ℕ) : Option ℚ :=
  rsiFrom (emaAvgGain s p t) (emaAvgLoss s p t)

/-- Cutler RSI column. -/
def cutlerRSI (s : OHLC) (p : ℕ) (t : ℕ) : Option ℚ :=
  rsiFrom (cutlerAvgGain s p t) (cutlerAvgLoss s p t)

/-- State carried across one row of the Supertrend loop
(`IndSupertrend._adjust_base_boundary_for_supertrend`): the final upper and
lower boundaries and the mode (`support = true` encodes the code's `1`,
Support-Active; `false` encodes `0`, Resistance-Active). -/
structure STState where
  fUp : ℚ
  fDn : ℚ
  support : Bool
deriving DecidableEq, Repr

/-- One iteration of the Supertrend loop body at row `t` (for `t > period`). -/
def stStep (closes baseUps baseDns : ℕ → ℚ) (t : ℕ) (prev : STState) : STState :=
  let fUp := if prev.fUp < closes (t - 1) then baseUps t else min (baseUps t) prev.fUp
  let fDn := if closes (t - 1) < prev.fDn then baseDns t else max (baseDns t) prev.fDn
  let md := if closes t < fDn then false
            else if fUp < closes t then true
            else prev.support
  ⟨fUp, fDn, md⟩

/-- Supertrend state after `k` loop iterations; index `k` describes row
`p + k`.  `stAux 0` is the seed written at row `p`: `finalUp = baseUp`,
`finalDn = baseDn`, mode `1` (Support-Active, "just a random pick"). -/
def stAux (closes baseUps baseDns : ℕ → ℚ) (p : ℕ) : ℕ → STState
  | 0 => ⟨baseUps p, baseDns p, true⟩
  | k + 1 => stStep closes baseUps baseDns (p + k + 1) (stAux closes baseUps baseDns p k)

/-- Final upper boundary at row `t ≥ p` (total helper). -/
def stFUp (closes baseUps baseDns : ℕ → ℚ) (p t : ℕ) : ℚ :=
  (stAux closes baseUps baseDns p (t - p)).fUp

/-- Final lower boundary at row `t ≥ p` (total helper). -/
def stFDn (closes baseUps baseDns : ℕ → ℚ) (p t : ℕ) : ℚ :=
  (stAux closes baseUps baseDns p (t - p)).fDn

/-- Mode at row `t ≥ p` (total helper; `true` = Support-Active). -/
def stModeB (closes baseUps baseDns : ℕ → ℚ) (p t : ℕ) : Bool :=
  (stAux closes baseUps baseDns p (t - p)).support

/-- Published Supertrend value chosen by the loop body at row `t > p`:
`final_dns[idx] if modes[idx] == 1 else final_ups[idx]`. -/
def stPubQ (closes baseUps baseDns : ℕ → ℚ) (p t : ℕ) : ℚ :=
  if stModeB closes baseUps baseDns p t then stFDn closes baseUps baseDns p t
  else stFUp closes baseUps baseDns p t

/-- The `final_ups` array over a frame of `n` rows: NaN (undefined) strictly
below the seed row and from `n` on. -/
def finalUpCol (closes baseUps baseDns : ℕ → ℚ) (p n t : ℕ) : Option ℚ :=
  if t < p ∨ n ≤ t then none else some (stFUp closes baseUps baseDns p t)

/-- The `final_dns` array over a frame of `n` rows. -/
def finalDnCol (closes baseUps baseDns : ℕ → ℚ) (p n t : ℕ) : Option ℚ :=
  if t < p ∨ n ≤ t then none else some (stFDn closes baseUps baseDns p t)

/-- The `modes` list over a frame of `n` rows (`true` = `1` = Support-Active). -/
def modeCol (closes baseUps baseDns : ℕ → ℚ) (p n t : ℕ) : Option Bool :=
  if t < p ∨ n ≤ t then none else some (stModeB closes baseUps baseDns p t)

/-- The published `supertrend` array over a frame of `n` rows.  At the seed row
the code publishes `base_ups[period]` (even though the seed mode is `1`);
afterwards it publishes `stPubQ`. -/
def supertrendCol (closes baseUps baseDns : ℕ → ℚ) (p n t : ℕ) : Option ℚ :=
  if t < p ∨ n ≤ t then none
  else if t = p then some (baseUps p)
  else some (stPubQ closes baseUps baseDns p t)

/-- Total ATR helper (junk `0` where the ATR column is undefined; the
Supertrend loop only reads rows at and after the seed, where ATR is defined). -/
def atrQ (s : OHLC) (p t : ℕ) : ℚ := (avgTrueRange s p t).getD 0

/-- Median price `0.5 * (High + Low)` of row `t`. -/
def midQ (s : OHLC) (t : ℕ) : ℚ := (highQ s t + lowQ s t) / 2

/-- Raw upper band `base_ups` of `IndSupertrend._calc`:
`0.5*(High+Low) + multiplier_up * ATR`. -/
def baseUpQ (s : OHLC) (p : ℕ) (mUp : ℚ) (t : ℕ) : ℚ := midQ s t + mUp * atrQ s p t

/-- Raw lower band `base_dns` of `IndSupertrend._calc`. -/
def baseDnQ (s : OHLC) (p : ℕ) (mDn : ℚ) (t : ℕ) : ℚ := midQ s t - mDn * atrQ s p t

/-- Mode column of the full Supertrend pipeline on an input series. -/
def stModeFull (s : OHLC) (p : ℕ) (mUp mDn : ℚ) (t : ℕ) : Option Bool :=
  modeCol (closeQ s) (baseUpQ s p mUp) (baseDnQ s p mDn) p s.length t

/-- Published Supertrend column of the full pipeline on an input series. -/
def supertrendFull (s : OHLC) (p : ℕ) (mUp mDn : ℚ) (t : ℕ) : Option ℚ :=
  supertrendCol (closeQ s) (baseUpQ s p mUp) (baseDnQ s p mDn) p s.length t

/-- Lexicographic order used by Python's `heapq` on `(value, index)` tuples. -/
def hpOrd (a b : ℚ × ℕ) : Prop :=
  a.1 < b.1 ∨ (a.1 = b.1 ∧ a.2 ≤ b.2)

instance : DecidableRel hpOrd := fun a b =>
  decidable_of_iff (a.1 < b.1 ∨ (a.1 = b.1 ∧ a.2 ≤ b.2)) Iff.rfl

instance : IsTotal (ℚ × ℕ) hpOrd :=
  ⟨fun a b => by
    rcases lt_trichotomy a.1 b.1 with h | h | h
    · exact Or.inl (Or.inl h)
    · rcases Nat.le_total a.2 b.2 with h2 | h2
      · exact Or.inl (Or.inr ⟨h, h2⟩)
      · exact Or.inr (Or.inr ⟨h.symm, h2⟩)
    · exact Or.inr (Or.inl h)⟩

instance : IsTrans (ℚ × ℕ) hpOrd :=
  ⟨fun a b c hab hbc => by
    rcases hab with hab | ⟨hab, hab2⟩ <;> rcases hbc with hbc | ⟨hbc, hbc2⟩
    · exact Or.inl (hab.trans hbc)
    · exact Or.inl (hbc ▸ hab)
    · exact Or.inl (hab ▸ hbc)
    · exact Or.inr ⟨hab.trans hbc, hab2.trans hbc2⟩⟩

/-- The lexicographic heap order is antisymmetric. -/
theorem hpOrd_antisymm {a b : ℚ × ℕ} (hab : hpOrd a b) (hba : hpOrd b a) : a = b := by
  rcases hab with hab | ⟨hab, hab2⟩ <;> rcases hba with hba | ⟨hba, hba2⟩
  · exact absurd hba (lt_asymm hab)
  · exact absurd hab (hba ▸ lt_irrefl _)
  · exact absurd hba (hab ▸ lt_irrefl _)
  · exact Prod.ext hab (Nat.le_antisymm hab2 hba2)

/-- Lazy stale-entry removal (`IndAroon.__clean_heap`): pop while the heap
head's index falls outside the window. -/
def hclean : List (ℚ × ℕ) → ℕ → List (ℚ × ℕ)
  | [], _ => []
  | e :: h, m => if e.2 < m then hclean h m else e :: h

/-- Push `(key i, i)` for each `i` of `idxs` into the heap.  The heap is
modelled as the list sorted by `hpOrd` — the canonical representation of
`heapq`'s binary heap: pushes insert, and the head is the least entry. -/
def hpushAll (key : ℕ → ℚ) (idxs : List ℕ) (h : List (ℚ × ℕ)) : List (ℚ × ℕ) :=
  idxs.foldl (fun acc i => acc.orderedInsert hpOrd (key i, i)) h

/-- Heap state of the Aroon loop (`IndAroon._calc`) before processing row
`p + k`: `aroonHeap 0` holds rows `0 … p-1`; each iteration cleans entries
older than the window and then pushes the current row after reading.  The same
construction serves both heaps: `key = lows` for the min-heap and
`key = fun j => -(highs j)` for the max-heap. -/
def aroonHeap (key : ℕ → ℚ) (p : ℕ) : ℕ → List (ℚ × ℕ)
  | 0 => hpushAll key (List.range p) []
  | k + 1 => (hclean (aroonHeap key p k) k).orderedInsert hpOrd (key (p + k), p + k)

/-- Aroon output cell at row `t` of a frame with `n` rows, reading the heap
head after cleaning: `(p - (t - idx)) / p * 100`.  Undefined below row `p` and
from `n` on.  (The heap is provably nonempty for `p ≥ 1`; the `[]` branch is
dead code kept for totality.) -/
def aroonValAt (key : ℕ → ℚ) (p n t : ℕ) : Option ℚ :=
  if t < p ∨ n ≤ t then none
  else
    match hclean (aroonHeap key p (t - p)) (t - p) with
    | [] => none
    | e :: _ => some ((((p : ℚ) - ((t : ℚ) - (e.2 : ℚ))) / (p : ℚ)) * 100)

/-- AroonUp column: max-heap over `(-(highs i), i)`. -/
def aroonUp (s : OHLC) (p t : ℕ) : Option ℚ :=
  aroonValAt (fun j => -(highQ s j)) p s.length t

/-- AroonDn column: min-heap over `(lows i, i)`. -/
def aroonDn (s : OHLC) (p t : ℕ) : Option ℚ :=
  aroonValAt (fun j => lowQ s j) p s.length t

/-- Least index `j` of the window `[a, a + len)` minimising `(key j, j)`
lexicographically, i.e. the smallest index attaining the least key value.
Used to state what the heap head is. -/
def lexArgmin (key : ℕ → ℚ) (a : ℕ) : ℕ → ℕ
  | 0 => a
  | len + 1 =>
    if key (a + len) < key (lexArgmin key a len) then a + len
    else lexArgmin key a len

/-- Modelled from the spec's words, for comparison with the code: the spec's
AroonUp at row `t` uses the trailing window of the last `period` rows
"inclusive of `t`", i.e. indices `t - period + 1 … t`. -/
def aroonUpSpecWin (s : OHLC) (p t : ℕ) : ℚ :=
  let j := lexArgmin (fun i => -(highQ s i)) (t + 1 - p) p
  (((p : ℚ) - ((t : ℚ) - (j : ℚ))) / (p : ℚ)) * 100

/-- `IndWilderRSI._calc` as a fallible computation: the seeding statement
`ups.iloc[n] = ups.iloc[:n].mean()` raises `IndexError` unless `n` is a valid
position, i.e. unless `period < len(df)`.  On success it publishes the
average-gain column (the columns derived from it add nothing to failure
behaviour). -/
def wilderCalcE (s : OHLC) (p : ℕ) : Except Unit (ℕ → Option ℚ) :=
  if p < s.length then Except.ok (wilderAvgGain s p) else Except.error ()

/-- `IndAvgTrueRange._calc` as a fallible computation: `_tr.iloc[period] = ...`
raises `IndexError` unless `period < len(df)`. -/
def atrCalcE (s : OHLC) (p : ℕ) : Except Unit (ℕ → Option ℚ) :=
  if p < s.length then Except.ok (avgTrueRange s p) else Except.error ()

/-- `IndAroon._calc` as a fallible computation: the warm-up loop reads
`lows[i]` for `i < period`, raising `IndexError` unless `period ≤ len(df)`. -/
def aroonCalcE (s : OHLC) (p : ℕ) : Except Unit ((ℕ → Option ℚ) × (ℕ → Option ℚ)) :=
  if p ≤ s.length then Except.ok (fun t => aroonUp s p t, fun t => aroonDn s p t)
  else Except.error ()

/-- `IndSupertrend._calc` as a fallible computation: it first runs
`IndAvgTrueRange` (which raises unless `period < len(df)`), and its own seeding
`final_ups[period] = ...` needs the same bound. -/
def supertrendCalcE (s : OHLC) (p : ℕ) (mUp mDn : ℚ) : Except Unit (ℕ → Option ℚ) :=
  match atrCalcE s p with
  | Except.error e => Except.error e
  | Except.ok _ =>
    if p < s.length then Except.ok (supertrendFull s p mUp mDn) else Except.error ()

/-- A set of derived columns to be merged (the `df` argument of
`_BaseIndicator._add_result_safely`): its tick-key column plus the non-key
columns, each aligned positionally with `ticks`. -/
structure DerivedSet where
  ticks : List ℕ
  cols : List (String × List (Option ℚ))
deriving DecidableEq, Repr

/-- The series container's state: tick-key column plus accumulated columns,
each aligned positionally with `ticks`. -/
structure Container where
  ticks : List ℕ
  cols : List (String × List (Option ℚ))
deriving DecidableEq, Repr

/-- Align a derived column to the container's tick keys, as the left join
`self._df.merge(df, how='left', on=tick_col)` does: each container row takes
the derived value at the matching tick key, undefined if absent.  (The
container invariant — unique tick keys, spec §3 — makes the pandas left join
a per-tick lookup.) -/
def alignCol (sticks dticks : List ℕ) (data : List (Option ℚ)) : List (Option ℚ) :=
  sticks.map fun t =>
    match (dticks.zip data).find? (fun e => e.1 == t) with
    | some e => e.2
    | none => none

/-- `_BaseIndicator._add_result_safely`: drop the container columns whose name
collides with an incoming column, then left-join the derived columns onto the
container by tick key. -/
def addResultSafely (c : Container) (d : DerivedSet) : Container :=
  { ticks := c.ticks
    cols :=
      (c.cols.filter fun col => !((d.cols.map Prod.fst).contains col.1)) ++
        d.cols.map fun col => (col.1, alignCol c.ticks d.ticks col.2) }

/-- Concrete 4-row series (closes 1, 3, 2, 5) used by witnesses. -/
def serW : OHLC := [⟨1, 1, 1⟩, ⟨3, 3, 3⟩, ⟨2, 2, 2⟩, ⟨5, 5, 5⟩]

/-- Concrete constant 4-row series (all prices 5), on which every gain and
every loss vanishes. -/
def serConst : OHLC := [⟨5, 5, 5⟩, ⟨5, 5, 5⟩, ⟨5, 5, 5⟩, ⟨5, 5, 5⟩]

/-- Concrete 4-row series whose High is maximal at the last row. -/
def serAroon : OHLC := [⟨10, 1, 5⟩, ⟨1, 1, 5⟩, ⟨1, 1, 5⟩, ⟨20, 0, 5⟩]

/-- Concrete 6-row series exhibiting both Supertrend run-invariant failures. -/
def serST : OHLC :=
  [⟨100, 100, 100⟩, ⟨101, 99, 100⟩, ⟨100, 100, 100⟩,
   ⟨60, 60, 100⟩, ⟨60, 60, 95⟩, ⟨95, 95, 85⟩]

/-- Concrete 3-row series (shorter than the periods used against it). -/
def serShort : OHLC := [⟨10, 9, 10⟩, ⟨11, 10, 11⟩, ⟨12, 11, 9⟩]

/-- Constant-zero column, used to instantiate generic theorems in witnesses. -/
def zeroCol : ℕ → ℚ := fun _ => 0

/-- Concrete container with one prior column. -/
def conW : Container := ⟨[3, 7], [("A", [some 1, some 2])]⟩

/-- Concrete derived-column set whose tick keys match `conW`, with a colliding
name and a fresh name. -/
def dsW : DerivedSet := ⟨[3, 7], [("A", [some 10, none]), ("B", [none, some 4])]⟩

section BasicLemmas

/-- A row below the length is present, so its close is the total helper. -/
theorem closeAt_eq (s : OHLC) {t : ℕ} (h : t < s.length) :
    closeAt s t = some (closeQ s t) := by
  simp only [closeAt, closeQ, List.get?_eq_get h, Option.map_some', Option.getD_some]

/-- High of an in-range row. -/
theorem highAt_eq (s : OHLC) {t : ℕ} (h : t < s.length) :
    highAt s t = some (highQ s t) := by
  simp only [highAt, highQ, List.get?_eq_get h, Option.map_some', Option.getD_some]

/-- Low of an in-range row. -/
theorem lowAt_eq (s : OHLC) {t : ℕ} (h : t < s.length) :
    lowAt s t = some (lowQ s t) := by
  simp only [lowAt, lowQ, List.get?_eq_get h, Option.map_some', Option.getD_some]

/-- The close-return delta of an in-range, non-initial row. -/
theorem closeDelta_eq (s : OHLC) {t : ℕ} (h1 : 1 ≤ t) (h2 : t < s.length) :
    closeDelta s t = some (closeQ s t - closeQ s (t - 1)) := by
  obtain ⟨u, rfl⟩ : ∃ u, t = u + 1 := ⟨t - 1, by omega⟩
  have hu : u < s.length := by omega
  simp [closeDelta, prevClose, closeAt_eq s h2, closeAt_eq s hu]

/-- The gain cell of an in-range, non-initial row. -/
theorem gainAt_eq (s : OHLC) {t : ℕ} (h1 : 1 ≤ t) (h2 : t < s.length) :
    gainAt s t = some (max (closeQ s t - closeQ s (t - 1)) 0) := by
  simp [gainAt, closeDelta_eq s h1 h2]

/-- The loss cell of an in-range, non-initial row. -/
theorem lossAt_eq (s : OHLC) {t : ℕ} (h1 : 1 ≤ t) (h2 : t < s.length) :
    lossAt s t = some (-(min (closeQ s t - closeQ s (t - 1)) 0)) := by
  simp [lossAt, closeDelta_eq s h1 h2]

/-- The gain column is undefined at row 0 (no prior close). -/
theorem gainAt_zero (s : OHLC) : gainAt s 0 = none := by
  cases h : closeAt s 0 <;> simp [gainAt, closeDelta, prevClose, h]

/-- The loss column is undefined at row 0. -/
theorem lossAt_zero (s : OHLC) : lossAt s 0 = none := by
  cases h : closeAt s 0 <;> simp [lossAt, closeDelta, prevClose, h]

/-- The gain cell is the total helper on a non-initial in-range row. -/
theorem gainAt_eq_getD (s : OHLC) {t : ℕ} (h1 : 1 ≤ t) (h2 : t < s.length) :
    gainAt s t = some (gainQ s t) := by
  rw [gainQ, gainAt_eq s h1 h2]; rfl

/-- The loss cell is the total helper on a non-initial in-range row. -/
theorem lossAt_eq_getD (s : OHLC) {t : ℕ} (h1 : 1 ≤ t) (h2 : t < s.length) :
    lossAt s t = some (lossQ s t) := by
  rw [lossQ, lossAt_eq s h1 h2]; rfl

/-- The True Range column is undefined at row 0. -/
theorem trueRange_zero (s : OHLC) : trueRange s 0 = none := by
  cases h : highAt s 0 <;> cases h2 : lowAt s 0 <;>
    simp [trueRange, prevClose, h, h2]

/-- The True Range cell of an in-range, non-initial row. -/
theorem trueRange_eq (s : OHLC) {t : ℕ} (h1 : 1 ≤ t) (h2 : t < s.length) :
    trueRange s t =
      some (max (highQ s t - lowQ s t)
        (max |highQ s t - closeQ s (t - 1)| |lowQ s t - closeQ s (t - 1)|)) := by
  obtain ⟨u, rfl⟩ : ∃ u, t = u + 1 := ⟨t - 1, by omega⟩
  have hu : u < s.length := by omega
  simp [trueRange, prevClose, highAt_eq s h2, lowAt_eq s h2, closeAt_eq s hu]

/-- The True Range cell is the total helper on a non-initial in-range row. -/
theorem trueRange_eq_getD (s : OHLC) {t : ℕ} (h1 : 1 ≤ t) (h2 : t < s.length) :
    trueRange s t = some (trQ s t) := by
  rw [trQ, trueRange_eq s h1 h2]; rfl

end BasicLemmas

section SMMALemmas

/-- Wilder SMMA cells strictly below the period are undefined. -/
theorem wilderSMMA_undef (x : ℕ → Option ℚ) {p t : ℕ} (h : t < p) :
    wilderSMMA x p t = none := by
  simp [wilderSMMA, h]

/-- The Wilder SMMA cell at the period row is the (NaN-skipping) mean of the
input cells strictly below it. -/
theorem wilderSMMA_seed (x : ℕ → Option ℚ) (p : ℕ) :
    wilderSMMA x p p = seedMean x p  := by
  simp [wilderSMMA, smmaTail]

/-- A list whose members are all mapped to `some` by `f` is `filterMap`-ped to
the list of the mapped values. -/
theorem filterMap_eq_map_of_some {l : List ℕ} {f : ℕ → Option ℚ} {g : ℕ → ℚ}
    (h : ∀ a ∈ l, f a = some (g a)) : l.filterMap f = l.map g := by
  induction l with
  | nil => rfl
  | cons a l ih =>
    rw [List.filterMap_cons, h a (List.mem_cons_self a l), List.map_cons,
      ih fun b hb => h b (List.mem_cons_of_mem a hb)]

/-- Seed of a Wilder recurrence whose input column is undefined at row 0 and
defined strictly below the period: the mean ranges over the `p - 1` defined
values. -/
theorem seedMean_shift {x : ℕ → Option ℚ} {g : ℕ → ℚ} {p : ℕ} (hp : 2 ≤ p)
    (h0 : x 0 = none) (hs : ∀ i, 1 ≤ i → i < p → x i = some (g i)) :
    seedMean x p =
      some ((((List.range (p - 1)).map fun i => g (i + 1)).sum) / ((p - 1 : ℕ) : ℚ)) := by
  obtain ⟨q, rfl⟩ : ∃ q, p = q + 1 := ⟨p - 1, by omega⟩
  have hq : 1 ≤ q := by omega
  have hvals : (List.range (q + 1)).filterMap x =
      (List.range q).map fun i => g (i + 1) := by
    rw [List.range_succ_eq_map, List.filterMap_cons, h0, List.filterMap_map]
    exact filterMap_eq_map_of_some fun a ha => by
      have : a < q := List.mem_range.mp ha
      exact hs (a + 1) (by omega) (by omega)
  have hne : ((List.range q).map fun i => g (i + 1)) ≠ [] := by
    have : q ≠ 0 := by omega
    simp [List.map_eq_nil_iff, List.range_eq_nil, this]
  rw [seedMean]
  simp only [hvals, List.isEmpty_iff, hne, if_false, List.length_map,
    List.length_range]
  norm_num

/-- Once the seed is defined, every later Wilder SMMA cell is. -/
theorem smmaTail_isSome {x : ℕ → Option ℚ} {p : ℕ}
    (h : (seedMean x p).isSome) : ∀ k, (smmaTail x p k).isSome := by
  intro k
  induction k with
  | zero => exact h
  | succ k ih =>
    rw [smmaTail]
    rcases h1 : smmaTail x p k with _ | prev
    · rw [h1] at ih; exact absurd ih (by simp)
    · cases h2 : x (p + k + 1) <;> simp

/-- The Wilder SMMA recurrence, one row after another defined row. -/
theorem wilderSMMA_rec {x : ℕ → Option ℚ} {p t : ℕ} (hpt : p < t) {a v : ℚ}
    (ha : wilderSMMA x p (t - 1) = some a) (hv : x t = some v) :
    wilderSMMA x p t = some ((1 - 1 / (p : ℚ)) * a + (1 / (p : ℚ)) * v) := by
  obtain ⟨k, rfl⟩ : ∃ k, t = p + k + 1 := ⟨t - p - 1, by omega⟩
  have e1 : p + k + 1 - p = k + 1 := by omega
  have e2 : p + k + 1 - 1 = p + k := by omega
  have e3 : p + k - p = k := by omega
  rw [wilderSMMA, if_neg (by omega), e1, smmaTail]
  rw [wilderSMMA, if_neg (by omega), e2, e3] at ha
  rw [ha, hv]

/-- A defined seed makes every Wilder SMMA cell from the period row on
defined. -/
theorem wilderSMMA_isSome {x : ℕ → Option ℚ} {p t : ℕ}
    (hseed : (seedMean x p).isSome) (hpt : p ≤ t) :
    (wilderSMMA x p t).isSome := by
  rw [wilderSMMA, if_neg (by omega)]
  exact smmaTail_isSome hseed _

end SMMALemmas

/-- C2: Wilder SMMA warm-up.  For a series with more than `period` rows and
`period ≥ 2`, the smoothed gain, smoothed loss and ATR columns are undefined
strictly below row `period`; at row `period` each equals the arithmetic mean of
the input values present among the first `period` rows (the input cell of row 0
carries no value, so these are the `period - 1` values of rows `1 … period-1`);
and for every later in-range row the exact Wilder recurrence
`y[t] = (1 - 1/period)·y[t-1] + (1/period)·x[t]` holds. -/
theorem c2_wilder_smma_warmup (s : OHLC) (p : ℕ) (hp : 2 ≤ p) (hlen : p < s.length) :
    (∀ t, t < p →
      wilderAvgGain s p t = none ∧ wilderAvgLoss s p t = none ∧
        avgTrueRange s p t = none) ∧
    wilderAvgGain s p p =
      some ((((List.range (p - 1)).map fun i => gainQ s (i + 1)).sum) / ((p - 1 : ℕ) : ℚ)) ∧
    wilderAvgLoss s p p =
      some ((((List.range (p - 1)).map fun i => lossQ s (i + 1)).sum) / ((p - 1 : ℕ) : ℚ)) ∧
    avgTrueRange s p p =
      some ((((List.range (p - 1)).map fun i => trQ s (i + 1)).sum) / ((p - 1 : ℕ) : ℚ)) ∧
    (∀ t, p < t → t < s.length →
      (∃ a g, wilderAvgGain s p (t - 1) = some a ∧ gainAt s t = some g ∧
        wilderAvgGain s p t = some ((1 - 1 / (p : ℚ)) * a + (1 / (p : ℚ)) * g)) ∧
      (∃ a g, wilderAvgLoss s p (t - 1) = some a ∧ lossAt s t = some g ∧
        wilderAvgLoss s p t = some ((1 - 1 / (p : ℚ)) * a + (1 / (p : ℚ)) * g)) ∧
      (∃ a g, avgTrueRange s p (t - 1) = some a ∧ trueRange s t = some g ∧
        avgTrueRange s p t = some ((1 - 1 / (p : ℚ)) * a + (1 / (p : ℚ)) * g))) := by
  have hg := fun i (hi1 : 1 ≤ i) (hi2 : i < p) =>
    gainAt_eq_getD s hi1 (show i < s.length by omega)
  have hl := fun i (hi1 : 1 ≤ i) (hi2 : i < p) =>
    lossAt_eq_getD s hi1 (show i < s.length by omega)
  have htr := fun i (hi1 : 1 ≤ i) (hi2 : i < p) =>
    trueRange_eq_getD s hi1 (show i < s.length by omega)
  have hseedg : (seedMean (gainAt s) p).isSome := by
    rw [seedMean_shift hp (gainAt_zero s) hg]; rfl
  have hseedl : (seedMean (lossAt s) p).isSome := by
    rw [seedMean_shift hp (lossAt_zero s) hl]; rfl
  have hseedt : (seedMean (trueRange s) p).isSome := by
    rw [seedMean_shift hp (trueRange_zero s) htr]; rfl
  refine ⟨fun t ht => ⟨wilderSMMA_undef _ ht, wilderSMMA_undef _ ht, wilderSMMA_undef _ ht⟩,
    ?_, ?_, ?_, ?_⟩
  · rw [wilderAvgGain, wilderSMMA_seed]; exact seedMean_shift hp (gainAt_zero s) hg
  · rw [wilderAvgLoss, wilderSMMA_seed]; exact seedMean_shift hp (lossAt_zero s) hl
  · rw [avgTrueRange, wilderSMMA_seed]; exact seedMean_shift hp (trueRange_zero s) htr
  · intro t ht1 ht2
    obtain ⟨a1, ha1⟩ := Option.isSome_iff_exists.mp
      (wilderSMMA_isSome hseedg (show p ≤ t - 1 by omega))
    obtain ⟨a2, ha2⟩ := Option.isSome_iff_exists.mp
      (wilderSMMA_isSome hseedl (show p ≤ t - 1 by omega))
    obtain ⟨a3, ha3⟩ := Option.isSome_iff_exists.mp
      (wilderSMMA_isSome hseedt (show p ≤ t - 1 by omega))
    exact ⟨⟨a1, gainQ s t, ha1, gainAt_eq_getD s (by omega) ht2,
        wilderSMMA_rec ht1 ha1 (gainAt_eq_getD s (by omega) ht2)⟩,
      ⟨a2, lossQ s t, ha2, lossAt_eq_getD s (by omega) ht2,
        wilderSMMA_rec ht1 ha2 (lossAt_eq_getD s (by omega) ht2)⟩,
      ⟨a3, trQ s t, ha3, trueRange_eq_getD s (by omega) ht2,
        wilderSMMA_rec ht1 ha3 (trueRange_eq_getD s (by omega) ht2)⟩⟩

/-- Witness for C2 at the concrete series `serW` with period 2. -/
theorem c2_wilder_smma_warmup_witness :
    2 ≤ 2 ∧ 2 < serW.length ∧
      (∀ t, t < 2 →
        wilderAvgGain serW 2 t = none ∧ wilderAvgLoss serW 2 t = none ∧
          avgTrueRange serW 2 t = none) :=
  ⟨le_refl 2, by decide, (c2_wilder_smma_warmup serW 2 (le_refl 2) (by decide)).1⟩

/-- C4: True Range is undefined at row 0 (no prior close) and equals
`max(High[t]-Low[t], |High[t]-Close[t-1]|, |Low[t]-Close[t-1]|)` at every
in-range row `t ≥ 1`.  (The pairing with the previous row is spec-modelled,
`ohlc_processor.py` being absent from the sources.) -/
theorem c4_true_range (s : OHLC) (t : ℕ) (h1 : 1 ≤ t) (h2 : t < s.length) :
    trueRange s 0 = none ∧
    trueRange s t = some (max (highQ s t - lowQ s t)
      (max |highQ s t - closeQ s (t - 1)| |lowQ s t - closeQ s (t - 1)|)) :=
  ⟨trueRange_zero s, trueRange_eq s h1 h2⟩

/-- Witness for C4 at the concrete series `serW`, row 1. -/
theorem c4_true_range_witness :
    1 ≤ 1 ∧ 1 < serW.length ∧
      (trueRange serW 0 = none ∧
        trueRange serW 1 = some (max (highQ serW 1 - lowQ serW 1)
          (max |highQ serW 1 - closeQ serW (1 - 1)| |lowQ serW 1 - closeQ serW (1 - 1)|))) :=
  ⟨le_refl 1, by decide, c4_true_range serW 1 (le_refl 1) (by decide)⟩

/-- C7: ATR recurrence.  For every in-range row strictly after the seed row,
`ATR[t] = ATR[t-1]·(period-1)/period + TrueRange[t]/period`, exactly over the
rationals (hence within floating tolerance). -/
theorem c7_atr_recurrence (s : OHLC) (p t : ℕ) (hp : 2 ≤ p) (h1 : p < t)
    (h2 : t < s.length) :
    ∃ a x, avgTrueRange s p (t - 1) = some a ∧ trueRange s t = some x ∧
      avgTrueRange s p t = some (a * ((p : ℚ) - 1) / p + x / p) := by
  have htr := fun i (hi1 : 1 ≤ i) (hi2 : i < p) =>
    trueRange_eq_getD s hi1 (show i < s.length by omega)
  have hseed : (seedMean (trueRange s) p).isSome := by
    rw [seedMean_shift hp (trueRange_zero s) htr]; rfl
  obtain ⟨a, ha⟩ := Option.isSome_iff_exists.mp
    (wilderSMMA_isSome hseed (show p ≤ t - 1 by omega))
  have hx := trueRange_eq_getD s (show 1 ≤ t by omega) h2
  refine ⟨a, trQ s t, ha, hx, ?_⟩
  simp only [avgTrueRange] at ha ⊢
  rw [wilderSMMA_rec h1 ha hx]
  have hp0 : (p : ℚ) ≠ 0 := Nat.cast_ne_zero.mpr (by omega)
  congr 1
  field_simp
  ring

/-- Witness for C7 at the concrete series `serW`, period 2, row 3. -/
theorem c7_atr_recurrence_witness :
    2 ≤ 2 ∧ 2 < 3 ∧ 3 < serW.length ∧
      (∃ a x, avgTrueRange serW 2 (3 - 1) = some a ∧ trueRange serW 3 = some x ∧
        avgTrueRange serW 2 3 = some (a * ((2 : ℚ) - 1) / 2 + x / 2)) :=
  ⟨le_refl 2, by omega, by decide,
    c7_atr_recurrence serW 2 3 (le_refl 2) (by omega) (by decide)⟩

/-- C10 (implicit): the EMA-based RSI smooths gain and loss with coefficient
`alpha = 1/period` (Wilder's coefficient, not `2/(period+1)`) and no seed: the
cell at row 0 is undefined (the row-0 gain is), the first defined cell equals
the first defined gain (row 1), and afterwards
`y[t] = (1 - 1/period)·y[t-1] + (1/period)·x[t]` exactly. -/
theorem c10_ema_rsi_smoothing (s : OHLC) (p : ℕ) (hp : 1 ≤ p) :
    emaAvgGain s p 0 = none ∧ emaAvgLoss s p 0 = none ∧
    (2 ≤ s.length → ∃ g, gainAt s 1 = some g ∧ emaAvgGain s p 1 = some g) ∧
    (2 ≤ s.length → ∃ l, lossAt s 1 = some l ∧ emaAvgLoss s p 1 = some l) ∧
    (∀ t, 2 ≤ t → t < s.length →
      (∃ a g, emaAvgGain s p (t - 1) = some a ∧ gainAt s t = some g ∧
        emaAvgGain s p t = some ((1 - 1 / (p : ℚ)) * a + (1 / (p : ℚ)) * g)) ∧
      (∃ a g, emaAvgLoss s p (t - 1) = some a ∧ lossAt s t = some g ∧
        emaAvgLoss s p t = some ((1 - 1 / (p : ℚ)) * a + (1 / (p : ℚ)) * g))) := by
  have h0g : emaAvgGain s p 0 = none := by
    rw [emaAvgGain, emaAlpha, gainAt_zero]
  have h0l : emaAvgLoss s p 0 = none := by
    rw [emaAvgLoss, emaAlpha, lossAt_zero]
  refine ⟨h0g, h0l, ?_, ?_, ?_⟩
  · intro hlen
    refine ⟨gainQ s 1, gainAt_eq_getD s (le_refl 1) (by omega), ?_⟩
    rw [emaAvgGain, emaAlpha]
    rw [emaAvgGain] at h0g
    rw [h0g, gainAt_eq_getD s (le_refl 1) (by omega)]
  · intro hlen
    refine ⟨lossQ s 1, lossAt_eq_getD s (le_refl 1) (by omega), ?_⟩
    rw [emaAvgLoss, emaAlpha]
    rw [emaAvgLoss] at h0l
    rw [h0l, lossAt_eq_getD s (le_refl 1) (by omega)]
  · intro t ht2 htl
    obtain ⟨u, rfl⟩ : ∃ u, t = u + 1 := ⟨t - 1, by omega⟩
    have hprevg : (emaAvgGain s p u).isSome := by
      obtain ⟨w, rfl⟩ : ∃ w, u = w + 1 := ⟨u - 1, by omega⟩
      rw [emaAvgGain, emaAlpha]
      rcases h : emaAlpha (gainAt s) (1 / (p : ℚ)) w with _ | prev <;>
        rw [gainAt_eq_getD s (by omega) (by omega)] <;> simp
    have hprevl : (emaAvgLoss s p u).isSome := by
      obtain ⟨w, rfl⟩ : ∃ w, u = w + 1 := ⟨u - 1, by omega⟩
      rw [emaAvgLoss, emaAlpha]
      rcases h : emaAlpha (lossAt s) (1 / (p : ℚ)) w with _ | prev <;>
        rw [lossAt_eq_getD s (by omega) (by omega)] <;> simp
    obtain ⟨a1, ha1⟩ := Option.isSome_iff_exists.mp hprevg
    obtain ⟨a2, ha2⟩ := Option.isSome_iff_exists.mp hprevl
    have e1 : u + 1 - 1 = u := by omega
    refine ⟨⟨a1, gainQ s (u + 1), by rw [e1]; exact ha1,
        gainAt_eq_getD s (by omega) htl, ?_⟩,
      ⟨a2, lossQ s (u + 1), by rw [e1]; exact ha2,
        lossAt_eq_getD s (by omega) htl, ?_⟩⟩
    · rw [emaAvgGain, emaAlpha]
      rw [emaAvgGain] at ha1
      rw [ha1, gainAt_eq_getD s (by omega) htl]
    · rw [emaAvgLoss, emaAlpha]
      rw [emaAvgLoss] at ha2
      rw [ha2, lossAt_eq_getD s (by omega) htl]

/-- Witness for C10 at the concrete series `serW`, period 2, row 2. -/
theorem c10_ema_rsi_smoothing_witness :
    1 ≤ 2 ∧ 2 ≤ 2 ∧ 2 < serW.length ∧
      (∃ a g, emaAvgGain serW 2 (2 - 1) = some a ∧ gainAt serW 2 = some g ∧
        emaAvgGain serW 2 2 = some ((1 - 1 / (2 : ℚ)) * a + (1 / (2 : ℚ)) * g)) :=
  ⟨by omega, le_refl 2, by decide,
    ((c10_ema_rsi_smoothing serW 2 (by omega)).2.2.2.2 2 (le_refl 2) (by decide)).1⟩

section RSILemmas

/-- Every defined gain cell is nonnegative. -/
theorem gainAt_nonneg (s : OHLC) (t : ℕ) {v : ℚ} (h : gainAt s t = some v) :
    0 ≤ v := by
  rcases hd : closeDelta s t with _ | d
  · rw [gainAt, hd] at h; exact absurd h (by simp)
  · rw [gainAt, hd, Option.map_some'] at h
    cases h
    exact le_max_right _ _

/-- Every defined loss cell is nonnegative. -/
theorem lossAt_nonneg (s : OHLC) (t : ℕ) {v : ℚ} (h : lossAt s t = some v) :
    0 ≤ v := by
  rcases hd : closeDelta s t with _ | d
  · rw [lossAt, hd] at h; exact absurd h (by simp)
  · rw [lossAt, hd, Option.map_some'] at h
    cases h
    simp only [neg_nonneg]
    exact min_le_right _ _

/-- A defined seed of nonnegative inputs is nonnegative. -/
theorem seedMean_nonneg {x : ℕ → Option ℚ} {p : ℕ}
    (hx : ∀ i v, x i = some v → 0 ≤ v) {v : ℚ} (h : seedMean x p = some v) :
    0 ≤ v := by
  rw [seedMean] at h
  set vals := (List.range p).filterMap x with hv
  by_cases he : vals.isEmpty
  · rw [if_pos he] at h; exact absurd h (by simp)
  · rw [if_neg he] at h
    cases h
    refine div_nonneg (List.sum_nonneg ?_) (by positivity)
    intro a ha
    obtain ⟨i, _, hi⟩ := List.mem_filterMap.mp (hv ▸ ha)
    exact hx i a hi

/-- The Wilder SMMA of a nonnegative column is nonnegative wherever defined
(for `period ≥ 1`). -/
theorem wilderSMMA_nonneg {x : ℕ → Option ℚ} {p : ℕ} (hp : 1 ≤ p)
    (hx : ∀ i v, x i = some v → 0 ≤ v) (t : ℕ) {v : ℚ}
    (h : wilderSMMA x p t = some v) : 0 ≤ v := by
  have hcoef1 : 0 ≤ 1 - 1 / (p : ℚ) := by
    have h1 : (1 : ℚ) ≤ (p : ℚ) := by exact_mod_cast hp
    have := div_le_one_of_le h1 (by positivity)
    linarith
  have hcoef2 : 0 ≤ 1 / (p : ℚ) := by positivity
  rw [wilderSMMA] at h
  by_cases ht : t < p
  · rw [if_pos ht] at h; exact absurd h (by simp)
  · rw [if_neg ht] at h
    generalize hk : t - p = k at h
    clear hk ht t
    induction k generalizing v with
    | zero => exact seedMean_nonneg hx h
    | succ k ih =>
      rw [smmaTail] at h
      rcases h1 : smmaTail x p k with _ | prev <;> rw [h1] at h <;>
        rcases h2 : x (p + k + 1) with _ | w <;> rw [h2] at h
      · exact absurd h (by simp)
      · cases h; exact hx _ _ h2
      · cases h; exact ih h1
      · cases h
        exact add_nonneg (mul_nonneg hcoef1 (ih h1)) (mul_nonneg hcoef2 (hx _ _ h2))

/-- The plain EMA of a nonnegative column with coefficient in `[0, 1]` is
nonnegative wherever defined. -/
theorem emaAlpha_nonneg {x : ℕ → Option ℚ} {a : ℚ} (h0 : 0 ≤ a) (h1 : a ≤ 1)
    (hx : ∀ i v, x i = some v → 0 ≤ v) (t : ℕ) {v : ℚ}
    (h : emaAlpha x a t = some v) : 0 ≤ v := by
  induction t generalizing v with
  | zero => exact hx 0 v h
  | succ t ih =>
    rw [emaAlpha] at h
    rcases hA : emaAlpha x a t with _ | prev <;> rw [hA] at h <;>
      rcases hB : x (t + 1) with _ | w <;> rw [hB] at h
    · exact absurd h (by simp)
    · cases h; exact hx _ _ hB
    · cases h; exact ih hA
    · cases h
      exact add_nonneg (mul_nonneg (by linarith) (ih hA)) (mul_nonneg h0 (hx _ _ hB))

/-- The rolling mean of a nonnegative column is nonnegative wherever defined. -/
theorem rollingMean_nonneg {x : ℕ → Option ℚ} {p : ℕ}
    (hx : ∀ i v, x i = some v → 0 ≤ v) (t : ℕ) {v : ℚ}
    (h : rollingMean x p t = some v) : 0 ≤ v := by
  rw [rollingMean] at h
  by_cases hc : t + 1 < p
  · rw [if_pos hc] at h; exact absurd h (by simp)
  · rw [if_neg hc] at h
    by_cases hall : ((List.range p).map fun j => x (t + 1 - p + j)).all Option.isSome
    · rw [if_pos hall] at h
      cases h
      refine div_nonneg (List.sum_nonneg ?_) (by positivity)
      intro b hb
      obtain ⟨o, ho, hob⟩ := List.mem_filterMap.mp hb
      obtain ⟨j, _, hj⟩ := List.mem_map.mp ho
      exact hx _ b (by rw [hj]; exact hob)
    · rw [if_neg hall] at h; exact absurd h (by simp)

/-- A defined RSI cell built from nonnegative averages lies in `[0, 100]`. -/
theorem rsiFrom_bound {u d v : ℚ} (hu : 0 ≤ u) (hd : 0 ≤ d)
    (h : rsiFrom (some u) (some d) = some v) : 0 ≤ v ∧ v ≤ 100 := by
  rw [rsiFrom] at h
  by_cases hd0 : d = 0
  · rw [if_pos hd0] at h
    by_cases hu0 : u = 0
    · rw [if_pos hu0] at h; exact absurd h (by simp)
    · rw [if_neg hu0] at h; cases h; norm_num
  · rw [if_neg hd0] at h
    cases h
    have hR : 0 ≤ u / d := div_nonneg hu hd
    have h1 : (1 : ℚ) ≤ 1 + u / d := by linarith
    have hq1 : 100 / (1 + u / d) ≤ 100 := div_le_self (by norm_num) h1
    have hq2 : 0 < 100 / (1 + u / d) := div_pos (by norm_num) (by linarith)
    constructor <;> linarith

end RSILemmas

/-- C6 (amended): every defined RSI cell of each of the three variants lies in
`[0, 100]`; when the average loss is `0` and the average gain is nonzero the
RSI saturates at `100` (float `inf` collapsing, no special-casing in the code);
but when the average loss and the average gain are both `0` the quotient is
`0/0 = NaN` and the RSI cell is undefined rather than `100`. -/
theorem c6_rsi_bound_and_saturation (s : OHLC) (p : ℕ) (hp : 1 ≤ p) (t : ℕ) :
    (∀ v, wilderRSI s p t = some v → 0 ≤ v ∧ v ≤ 100) ∧
    (∀ v, emaRSI s p t = some v → 0 ≤ v ∧ v ≤ 100) ∧
    (∀ v, cutlerRSI s p t = some v → 0 ≤ v ∧ v ≤ 100) ∧
    (∀ u, wilderAvgLoss s p t = some 0 → wilderAvgGain s p t = some u →
      (u ≠ 0 → wilderRSI s p t = some 100) ∧ (u = 0 → wilderRSI s p t = none)) ∧
    (∀ u, emaAvgLoss s p t = some 0 → emaAvgGain s p t = some u →
      (u ≠ 0 → emaRSI s p t = some 100) ∧ (u = 0 → emaRSI s p t = none)) ∧
    (∀ u, cutlerAvgLoss s p t = some 0 → cutlerAvgGain s p t = some u →
      (u ≠ 0 → cutlerRSI s p t = some 100) ∧ (u = 0 → cutlerRSI s p t = none)) := by
  have hgx : ∀ i v, gainAt s i = some v → 0 ≤ v := fun i v h => gainAt_nonneg s i h
  have hlx : ∀ i v, lossAt s i = some v → 0 ≤ v := fun i v h => lossAt_nonneg s i h
  have hp1 : (1 : ℚ) ≤ (p : ℚ) := by exact_mod_cast hp
  have ha0 : 0 ≤ 1 / (p : ℚ) := by positivity
  have ha1 : 1 / (p : ℚ) ≤ 1 := div_le_one_of_le₀ hp1 (by positivity)
  refine ⟨?_, ?_, ?_, ?_, ?_, ?_⟩
  · intro v h
    rw [wilderRSI] at h
    rcases hU : wilderAvgGain s p t with _ | u
    · rw [hU] at h; exact absurd h (by simp [rsiFrom])
    rcases hD : wilderAvgLoss s p t with _ | d
    · rw [hU, hD] at h; exact absurd h (by simp [rsiFrom])
    rw [hU, hD] at h
    exact rsiFrom_bound (wilderSMMA_nonneg hp hgx t hU)
      (wilderSMMA_nonneg hp hlx t hD) h
  · intro v h
    rw [emaRSI] at h
    rcases hU : emaAvgGain s p t with _ | u
    · rw [hU] at h; exact absurd h (by simp [rsiFrom])
    rcases hD : emaAvgLoss s p t with _ | d
    · rw [hU, hD] at h; exact absurd h (by simp [rsiFrom])
    rw [hU, hD] at h
    exact rsiFrom_bound (emaAlpha_nonneg ha0 ha1 hgx t hU)
      (emaAlpha_nonneg ha0 ha1 hlx t hD) h
  · intro v h
    rw [cutlerRSI] at h
    rcases hU : cutlerAvgGain s p t with _ | u
    · rw [hU] at h; exact absurd h (by simp [rsiFrom])
    rcases hD : cutlerAvgLoss s p t with _ | d
    · rw [hU, hD] at h; exact absurd h (by simp [rsiFrom])
    rw [hU, hD] at h
    exact rsiFrom_bound (rollingMean_nonneg hgx t hU) (rollingMean_nonneg hlx t hD) h
  · intro u hD hU
    rw [wilderRSI, hU, hD]
    exact ⟨fun hu0 => by simp [rsiFrom, hu0], fun hu0 => by simp [rsiFrom, hu0]⟩
  · intro u hD hU
    rw [emaRSI, hU, hD]
    exact ⟨fun hu0 => by simp [rsiFrom, hu0], fun hu0 => by simp [rsiFrom, hu0]⟩
  · intro u hD hU
    rw [cutlerRSI, hU, hD]
    exact ⟨fun hu0 => by simp [rsiFrom, hu0], fun hu0 => by simp [rsiFrom, hu0]⟩

/-- Counterexample to C6 as stated: on the constant series the Wilder average
loss at row 2 is a defined `0`, yet the RSI cell is undefined (`0/0 = NaN`),
not the claimed saturation value `100`. -/
theorem c6_counterexample :
    wilderAvgLoss serConst 2 2 = some 0 ∧ wilderRSI serConst 2 2 = none ∧
      wilderRSI serConst 2 2 ≠ some (100 : ℚ) := by
  have h : wilderRSI serConst 2 2 = none := by
    norm_num [wilderRSI, rsiFrom, wilderAvgGain, wilderAvgLoss, wilderSMMA,
      smmaTail, seedMean, List.range_succ, List.filterMap_cons, gainAt, lossAt,
      closeDelta, closeAt, prevClose, serConst]
  refine ⟨?_, h, by rw [h]; exact fun hc => Option.noConfusion hc⟩
  norm_num [wilderAvgLoss, wilderSMMA, smmaTail, seedMean, List.range_succ,
    List.filterMap_cons, lossAt, closeDelta, closeAt, prevClose, serConst]

/-- Witness for C6 at the concrete series `serW`, period 2, row 2. -/
theorem c6_rsi_bound_and_saturation_witness :
    1 ≤ 2 ∧ (∀ v, wilderRSI serW 2 2 = some v → 0 ≤ v ∧ v ≤ 100) :=
  ⟨by omega, (c6_rsi_bound_and_saturation serW 2 (by omega) 2).1⟩

section SupertrendLemmas

/-- Upper-boundary component of one Supertrend step. -/
theorem stStep_fUp (c b d : ℕ → ℚ) (t : ℕ) (prev : STState) :
    (stStep c b d t prev).fUp =
      if prev.fUp < c (t - 1) then b t else min (b t) prev.fUp := rfl

/-- Lower-boundary component of one Supertrend step. -/
theorem stStep_fDn (c b d : ℕ → ℚ) (t : ℕ) (prev : STState) :
    (stStep c b d t prev).fDn =
      if c (t - 1) < prev.fDn then d t else max (d t) prev.fDn := rfl

/-- Mode component of one Supertrend step, phrased against the updated
boundaries of the same step. -/
theorem stStep_mode (c b d : ℕ → ℚ) (t : ℕ) (prev : STState) :
    (stStep c b d t prev).support =
      if c t < (stStep c b d t prev).fDn then false
      else if (stStep c b d t prev).fUp < c t then true
      else prev.support := rfl

/-- A step that ends Support-Active did not see its close break the updated
lower boundary. -/
theorem stStep_support_true {c b d : ℕ → ℚ} {t : ℕ} {prev : STState}
    (h : (stStep c b d t prev).support = true) :
    ¬ c t < (stStep c b d t prev).fDn := by
  intro hc
  rw [stStep_mode, if_pos hc] at h
  exact Bool.noConfusion h

end SupertrendLemmas

/-- C1: the Supertrend row update for rows strictly after the seed row: the
final upper boundary resets to the base boundary when the previous close broke
the previous final upper boundary and ratchets by `min` otherwise; the final
lower boundary symmetrically with `max`; the mode flips to Resistance-Active
(`false`) when the close breaks the updated final lower boundary, else to
Support-Active (`true`) when it breaks the updated final upper boundary, else
persists; and the row publishes the final lower boundary in Support-Active mode
and the final upper boundary otherwise. -/
theorem c1_supertrend_row_update (closes baseUps baseDns : ℕ → ℚ) (p n t : ℕ)
    (h1 : p < t) (h2 : t < n) :
    finalUpCol closes baseUps baseDns p n t =
      some (if stFUp closes baseUps baseDns p (t - 1) < closes (t - 1) then baseUps t
        else min (baseUps t) (stFUp closes baseUps baseDns p (t - 1))) ∧
    finalDnCol closes baseUps baseDns p n t =
      some (if closes (t - 1) < stFDn closes baseUps baseDns p (t - 1) then baseDns t
        else max (baseDns t) (stFDn closes baseUps baseDns p (t - 1))) ∧
    modeCol closes baseUps baseDns p n t =
      some (if closes t < stFDn closes baseUps baseDns p t then false
        else if stFUp closes baseUps baseDns p t < closes t then true
        else stModeB closes baseUps baseDns p (t - 1)) ∧
    supertrendCol closes baseUps baseDns p n t =
      some (if stModeB closes baseUps baseDns p t then stFDn closes baseUps baseDns p t
        else stFUp closes baseUps baseDns p t) := by
  obtain ⟨k, rfl⟩ : ∃ k, t = p + k + 1 := ⟨t - p - 1, by omega⟩
  have e1 : p + k + 1 - p = k + 1 := by omega
  have e2 : p + k + 1 - 1 = p + k := by omega
  have e3 : p + k - p = k := by omega
  have hA : stAux closes baseUps baseDns p (k + 1) =
      stStep closes baseUps baseDns (p + k + 1) (stAux closes baseUps baseDns p k) := rfl
  refine ⟨?_, ?_, ?_, ?_⟩
  · rw [finalUpCol, if_neg (by omega)]
    simp only [stFUp, e1, e2, e3, hA, stStep_fUp]
  · rw [finalDnCol, if_neg (by omega)]
    simp only [stFDn, e1, e2, e3, hA, stStep_fDn]
  · rw [modeCol, if_neg (by omega)]
    simp only [stModeB, stFDn, stFUp, e1, e2, e3, hA, stStep_mode]
  · rw [supertrendCol, if_neg (by omega), if_neg (by omega : ¬ p + k + 1 = p)]
    simp only [stPubQ]

/-- Witness for C1 on constant-zero inputs, period 0, row 1 of a 2-row frame. -/
theorem c1_supertrend_row_update_witness :
    0 < 1 ∧ 1 < 2 ∧
      finalUpCol zeroCol zeroCol zeroCol 0 2 1 =
        some (if stFUp zeroCol zeroCol zeroCol 0 (1 - 1) < zeroCol (1 - 1) then zeroCol 1
          else min (zeroCol 1) (stFUp zeroCol zeroCol zeroCol 0 (1 - 1))) :=
  ⟨by omega, by omega,
    (c1_supertrend_row_update zeroCol zeroCol zeroCol 0 2 1 (by omega) (by omega)).1⟩

/-- C8 (amended): run invariant of the published Supertrend boundary.  For two
consecutive rows strictly after the seed row: if both are Support-Active the
published (lower) boundary does not decrease; if both are Resistance-Active and
the previous close did not exceed the previous final upper boundary, the
published (upper) boundary does not increase.  (At the seed row itself the code
publishes `base_ups[period]` while in Support-Active mode, and a close that
breaks the final lower boundary while also exceeding the final upper boundary
resets the published upper boundary upward inside a Resistance-Active run —
both make the claim fail as stated, see the counterexample.) -/
theorem c8_supertrend_run_invariant (closes baseUps baseDns : ℕ → ℚ) (p n t : ℕ)
    (h1 : p + 1 < t) (h2 : t < n) :
    supertrendCol closes baseUps baseDns p n t =
      some (stPubQ closes baseUps baseDns p t) ∧
    supertrendCol closes baseUps baseDns p n (t - 1) =
      some (stPubQ closes baseUps baseDns p (t - 1)) ∧
    (stModeB closes baseUps baseDns p (t - 1) = true →
      stModeB closes baseUps baseDns p t = true →
      stPubQ closes baseUps baseDns p (t - 1) ≤ stPubQ closes baseUps baseDns p t) ∧
    (stModeB closes baseUps baseDns p (t - 1) = false →
      stModeB closes baseUps baseDns p t = false →
      closes (t - 1) ≤ stFUp closes baseUps baseDns p (t - 1) →
      stPubQ closes baseUps baseDns p t ≤ stPubQ closes baseUps baseDns p (t - 1)) := by
  obtain ⟨k, rfl⟩ : ∃ k, t = p + k + 2 := ⟨t - p - 2, by omega⟩
  have e1 : p + k + 2 - 1 = p + k + 1 := by omega
  have e2 : p + k + 2 - p = k + 2 := by omega
  have e3 : p + k + 1 - p = k + 1 := by omega
  have hA1 : stAux closes baseUps baseDns p (k + 1) =
      stStep closes baseUps baseDns (p + k + 1) (stAux closes baseUps baseDns p k) := rfl
  have hA2 : stAux closes baseUps baseDns p (k + 2) =
      stStep closes baseUps baseDns (p + k + 2) (stAux closes baseUps baseDns p (k + 1)) := rfl
  refine ⟨?_, ?_, ?_, ?_⟩
  · rw [supertrendCol, if_neg (by omega), if_neg (by omega : ¬ p + k + 2 = p)]
  · rw [e1, supertrendCol, if_neg (by omega), if_neg (by omega : ¬ p + k + 1 = p)]
  · intro hm1 hm2
    rw [e1] at hm1 ⊢
    rw [stModeB, e3] at hm1
    rw [stModeB, e2] at hm2
    have hnb : ¬ closes (p + k + 1) < (stAux closes baseUps baseDns p (k + 1)).fDn := by
      rw [hA1] at hm1 ⊢
      exact stStep_support_true hm1
    have hstep : (stAux closes baseUps baseDns p (k + 2)).fDn =
        max (baseDns (p + k + 2)) (stAux closes baseUps baseDns p (k + 1)).fDn := by
      rw [hA2, stStep_fDn, e1, if_neg hnb]
    rw [stPubQ, stPubQ, stModeB, stModeB, e2, e3, hm1, hm2, if_pos rfl, if_pos rfl,
      stFDn, stFDn, e2, e3, hstep]
    exact le_max_right _ _
  · intro hm1 hm2 hcl
    rw [e1] at hm1 hcl ⊢
    rw [stModeB, e3] at hm1
    rw [stModeB, e2] at hm2
    rw [stFUp, e3] at hcl
    have hstep : (stAux closes baseUps baseDns p (k + 2)).fUp =
        min (baseUps (p + k + 2)) (stAux closes baseUps baseDns p (k + 1)).fUp := by
      rw [hA2, stStep_fUp, e1, if_neg (not_lt.mpr hcl)]
    rw [stPubQ, stPubQ, stModeB, stModeB, e2, e3, hm1, hm2]
    simp only [Bool.false_eq_true, if_false]
    rw [stFUp, stFUp, e2, e3, hstep]
    exact min_le_right _ _

/-- Witness for C8 (amended) on constant-zero inputs, period 0, row 2 of a
3-row frame. -/
theorem c8_supertrend_run_invariant_witness :
    0 + 1 < 2 ∧ 2 < 3 ∧
      supertrendCol zeroCol zeroCol zeroCol 0 3 2 =
        some (stPubQ zeroCol zeroCol zeroCol 0 2) :=
  ⟨by omega, by omega,
    (c8_supertrend_run_invariant zeroCol zeroCol zeroCol 0 3 2 (by omega) (by omega)).1⟩

set_option maxHeartbeats 1600000 in
/-- Counterexample to C8 as stated: on the concrete series `serST` with
period 2 and multipliers 1, rows 2 and 3 form a Support-Active run on which
the published boundary decreases (102 to 98: the seed row publishes the upper
base boundary), and rows 4 and 5 form a Resistance-Active run on which the
published boundary increases (181/2 to 441/4: the close at row 4 broke the
final upper boundary while staying below the final lower boundary). -/
theorem c8_counterexample :
    stModeFull serST 2 1 1 2 = some true ∧ stModeFull serST 2 1 1 3 = some true ∧
    supertrendFull serST 2 1 1 2 = some 102 ∧ supertrendFull serST 2 1 1 3 = some 98 ∧
    ¬ ((102 : ℚ) ≤ 98) ∧
    stModeFull serST 2 1 1 4 = some false ∧ stModeFull serST 2 1 1 5 = some false ∧
    supertrendFull serST 2 1 1 4 = some (181 / 2) ∧
    supertrendFull serST 2 1 1 5 = some (441 / 4) ∧
    ¬ ((441 / 4 : ℚ) ≤ 181 / 2) := by
  refine ⟨?_, ?_, ?_, ?_, ?_, ?_, ?_, ?_, ?_, ?_⟩ <;>
    norm_num [supertrendFull, stModeFull, supertrendCol, modeCol, stPubQ,
      stModeB, stFUp, stFDn, stAux, stStep, serST, baseUpQ, baseDnQ, atrQ,
      midQ, highQ, lowQ, closeQ, avgTrueRange, wilderSMMA, smmaTail, seedMean,
      List.range_succ, List.filterMap_cons, trueRange, highAt, lowAt,
      prevClose, closeAt]

/-- C3 (amended): on an input series with fewer rows than the period the
indicators do not behave uniformly.  Cutler's RSI completes with entirely
undefined derived columns; but Wilder's RSI, ATR, Aroon and Supertrend raise an
out-of-bounds `IndexError` in their seeding / warm-up statements instead of
completing; and True Range (whose period parameter is unused) and the EMA-based
RSI complete with *defined* values from row 1 on. -/
theorem c3_short_series (s : OHLC) (p : ℕ) (h : s.length < p) :
    (∀ t, t < s.length →
      cutlerAvgGain s p t = none ∧ cutlerAvgLoss s p t = none ∧
        cutlerRSI s p t = none) ∧
    wilderCalcE s p = Except.error () ∧
    atrCalcE s p = Except.error () ∧
    aroonCalcE s p = Except.error () ∧
    (∀ mUp mDn, supertrendCalcE s p mUp mDn = Except.error ()) ∧
    (∀ t, 1 ≤ t → t < s.length → (trueRange s t).isSome) ∧
    (∀ t, 1 ≤ t → t < s.length → (emaAvgGain s p t).isSome) := by
  have hatr : atrCalcE s p = Except.error () := by
    rw [atrCalcE, if_neg (by omega)]
  refine ⟨?_, ?_, hatr, ?_, ?_, ?_, ?_⟩
  · intro t ht
    have hg : cutlerAvgGain s p t = none := by
      rw [cutlerAvgGain, rollingMean, if_pos (by omega)]
    have hl : cutlerAvgLoss s p t = none := by
      rw [cutlerAvgLoss, rollingMean, if_pos (by omega)]
    exact ⟨hg, hl, by rw [cutlerRSI, hg, hl]; rfl⟩
  · rw [wilderCalcE, if_neg (by omega)]
  · rw [aroonCalcE, if_neg (by omega)]
  · intro mUp mDn
    simp only [supertrendCalcE, hatr]
  · intro t h1 h2
    rw [trueRange_eq s h1 h2]
    rfl
  · intro t h1 h2
    obtain ⟨u, rfl⟩ : ∃ u, t = u + 1 := ⟨t - 1, by omega⟩
    rw [emaAvgGain, emaAlpha]
    rcases hA : emaAlpha (gainAt s) (1 / (p : ℚ)) u with _ | prev <;>
      rw [gainAt_eq_getD s (by omega) h2] <;> simp

/-- Counterexample to C3 as stated: on the 3-row series `serShort` with
period 5, Wilder's RSI seeding raises (the computation fails rather than
completing), and both True Range and the EMA-based RSI produce defined values
(the derived columns are not entirely undefined). -/
theorem c3_counterexample :
    serShort.length < 5 ∧
    wilderCalcE serShort 5 = Except.error () ∧
    trueRange serShort 1 = some 1 ∧
    emaAvgGain serShort 5 1 = some 1 := by
  refine ⟨by norm_num [serShort], rfl, ?_, ?_⟩
  · norm_num [trueRange, highAt, lowAt, prevClose, closeAt, serShort]
  · norm_num [emaAvgGain, emaAlpha, gainAt, closeDelta, closeAt, prevClose, serShort]

/-- Witness for C3 (amended) at the concrete series `serShort`, period 5. -/
theorem c3_short_series_witness :
    serShort.length < 5 ∧ wilderCalcE serShort 5 = Except.error () :=
  ⟨by norm_num [serShort], (c3_short_series serShort 5 (by norm_num [serShort])).2.1⟩

/-- C9: merge idempotence.  Merging the same derived-column set twice (name
collisions replaced last-write-wins) yields exactly the container state of
merging it once, and a merge never changes the tick-key column (hence neither
row count nor order). -/
theorem c9_merge_idempotent (c : Container) (d : DerivedSet)
    (hk : d.ticks = c.ticks) :
    addResultSafely (addResultSafely c d) d = addResultSafely c d ∧
    (addResultSafely c d).ticks = c.ticks := by
  refine ⟨?_, rfl⟩
  simp only [addResultSafely]
  congr 1
  rw [List.filter_append]
  have h1 : ∀ P : String × List (Option ℚ) → Bool,
      (c.cols.filter P).filter P = c.cols.filter P := fun P => by
    rw [List.filter_filter]
    exact List.filter_congr fun a _ => by cases P a <;> rfl
  rw [h1]
  have h2 : (d.cols.map fun col => (col.1, alignCol c.ticks d.ticks col.2)).filter
      (fun col => !((d.cols.map Prod.fst).contains col.1)) = [] := by
    rw [List.filter_eq_nil_iff]
    intro a ha
    obtain ⟨col, hcol, rfl⟩ := List.mem_map.mp ha
    have hmem : col.1 ∈ d.cols.map Prod.fst := List.mem_map.mpr ⟨col, hcol, rfl⟩
    simp [List.elem_eq_true_of_mem hmem]
    exact ⟨col.2, hcol⟩
  rw [h2, List.append_nil]

/-- Witness for C9 at the concrete container `conW` and derived set `dsW`. -/
theorem c9_merge_idempotent_witness :
    dsW.ticks = conW.ticks ∧
      (addResultSafely (addResultSafely conW dsW) dsW = addResultSafely conW dsW ∧
        (addResultSafely conW dsW).ticks = conW.ticks) :=
  ⟨rfl, c9_merge_idempotent conW dsW rfl⟩

section AroonLemmas

/-- The heap order is reflexive. -/
theorem hpOrd_refl (e : ℚ × ℕ) : hpOrd e e := Or.inr ⟨rfl, le_refl _⟩

/-- Cleaning only removes entries. -/
theorem hclean_subset : ∀ (h : List (ℚ × ℕ)) (m : ℕ) (e : ℚ × ℕ),
    e ∈ hclean h m → e ∈ h := by
  intro h m
  induction h with
  | nil => intro e he; exact absurd he (by simp [hclean])
  | cons a h ih =>
    intro e he
    rw [hclean] at he
    by_cases hc : a.2 < m
    · rw [if_pos hc] at he; exact List.mem_cons_of_mem a (ih e he)
    · rw [if_neg hc] at he; exact he

/-- Cleaning preserves sortedness. -/
theorem hclean_sorted {h : List (ℚ × ℕ)} {m : ℕ}
    (hs : List.Sorted hpOrd h) : List.Sorted hpOrd (hclean h m) := by
  induction h with
  | nil => exact hs
  | cons a h ih =>
    rw [hclean]
    by_cases hc : a.2 < m
    · rw [if_pos hc]; exact ih hs.of_cons
    · rw [if_neg hc]; exact hs

/-- The head surviving a clean is inside the window. -/
theorem hclean_head_ge : ∀ {h : List (ℚ × ℕ)} {m : ℕ} {e : ℚ × ℕ}
    {tl : List (ℚ × ℕ)}, hclean h m = e :: tl → m ≤ e.2 := by
  intro h
  induction h with
  | nil => intro m e tl he; exact absurd he (by simp [hclean])
  | cons a h ih =>
    intro m e tl he
    rw [hclean] at he
    by_cases hc : a.2 < m
    · rw [if_pos hc] at he; exact ih he
    · rw [if_neg hc] at he
      cases he
      omega

/-- An entry inside the window survives a clean. -/
theorem mem_hclean : ∀ {h : List (ℚ × ℕ)} {m : ℕ} {e : ℚ × ℕ},
    e ∈ h → m ≤ e.2 → e ∈ hclean h m := by
  intro h
  induction h with
  | nil => intro m e he _; exact absurd he (by simp)
  | cons a h ih =>
    intro m e he hm
    rw [hclean]
    by_cases hc : a.2 < m
    · rw [if_pos hc]
      rcases List.mem_cons.mp he with rfl | he2
      · omega
      · exact ih he2 hm
    · rw [if_neg hc]; exact he

/-- Pushing keeps the heap sorted. -/
theorem hpushAll_sorted (key : ℕ → ℚ) : ∀ (l : List ℕ) (h : List (ℚ × ℕ)),
    List.Sorted hpOrd h → List.Sorted hpOrd (hpushAll key l h) := by
  intro l
  induction l with
  | nil => exact fun h hs => hs
  | cons i l ih =>
    intro h hs
    rw [hpushAll, List.foldl_cons]
    exact ih _ (hs.orderedInsert _ _)

/-- Pushing preserves existing entries. -/
theorem mem_hpushAll_of_mem (key : ℕ → ℚ) : ∀ (l : List ℕ) (h : List (ℚ × ℕ))
    (e : ℚ × ℕ), e ∈ h → e ∈ hpushAll key l h := by
  intro l
  induction l with
  | nil => exact fun h e he => he
  | cons i l ih =>
    intro h e he
    rw [hpushAll, List.foldl_cons]
    exact ih _ e ((List.mem_orderedInsert hpOrd).mpr (Or.inr he))

/-- Every pushed index is in the heap. -/
theorem mem_hpushAll_self (key : ℕ → ℚ) : ∀ (l : List ℕ) (h : List (ℚ × ℕ))
    (i : ℕ), i ∈ l → (key i, i) ∈ hpushAll key l h := by
  intro l
  induction l with
  | nil => intro h i hi; exact absurd hi (by simp)
  | cons j l ih =>
    intro h i hi
    rw [hpushAll, List.foldl_cons]
    rcases List.mem_cons.mp hi with rfl | hi2
    · exact mem_hpushAll_of_mem key l _ _ ((List.mem_orderedInsert hpOrd).mpr (Or.inl rfl))
    · exact ih _ i hi2

/-- Every heap entry is either pre-existing or one of the pushed pairs. -/
theorem mem_hpushAll_elim (key : ℕ → ℚ) : ∀ (l : List ℕ) (h : List (ℚ × ℕ))
    (e : ℚ × ℕ), e ∈ hpushAll key l h → e ∈ h ∨ ∃ i ∈ l, e = (key i, i) := by
  intro l
  induction l with
  | nil => exact fun h e he => Or.inl he
  | cons i l ih =>
    intro h e he
    rw [hpushAll, List.foldl_cons] at he
    rcases ih _ e he with he2 | ⟨i2, hi2, rfl⟩
    · rcases (List.mem_orderedInsert hpOrd).mp he2 with rfl | he3
      · exact Or.inr ⟨i, List.mem_cons_self i l, rfl⟩
      · exact Or.inl he3
    · exact Or.inr ⟨i2, List.mem_cons_of_mem i hi2, rfl⟩

/-- The Aroon heap is sorted at every iteration. -/
theorem aroonHeap_sorted (key : ℕ → ℚ) (p : ℕ) :
    ∀ k, List.Sorted hpOrd (aroonHeap key p k) := by
  intro k
  induction k with
  | zero => exact hpushAll_sorted key _ [] List.sorted_nil
  | succ k ih =>
    rw [aroonHeap]
    exact (hclean_sorted ih).orderedInsert _ _

/-- Every Aroon-heap entry is a `(key i, i)` pair of an already-seen row. -/
theorem aroonHeap_mem (key : ℕ → ℚ) (p : ℕ) : ∀ k (e : ℚ × ℕ),
    e ∈ aroonHeap key p k → e.2 < p + k ∧ e.1 = key e.2 := by
  intro k
  induction k with
  | zero =>
    intro e he
    rcases mem_hpushAll_elim key _ _ e he with he2 | ⟨i, hi, rfl⟩
    · exact absurd he2 (by simp)
    · exact ⟨by have := List.mem_range.mp hi; omega, rfl⟩
  | succ k ih =>
    intro e he
    rw [aroonHeap] at he
    rcases (List.mem_orderedInsert hpOrd).mp he with rfl | he2
    · exact ⟨by omega, rfl⟩
    · have := ih e (hclean_subset _ _ e he2)
      exact ⟨by omega, this.2⟩

/-- Entries of the current window are all present in the Aroon heap: the lazy
cleans only ever removed entries strictly older than the window. -/
theorem aroonHeap_window (key : ℕ → ℚ) (p : ℕ) (hp : 1 ≤ p) :
    ∀ k j, k ≤ j + 1 → j < p + k → (key j, j) ∈ aroonHeap key p k := by
  intro k
  induction k with
  | zero =>
    intro j _ hj2
    exact mem_hpushAll_self key _ [] j (List.mem_range.mpr (by omega))
  | succ k ih =>
    intro j hj1 hj2
    rw [aroonHeap]
    by_cases hjpk : j = p + k
    · subst hjpk
      exact (List.mem_orderedInsert hpOrd).mpr (Or.inl rfl)
    · exact (List.mem_orderedInsert hpOrd).mpr
        (Or.inr (mem_hclean (ih j (by omega) (by omega)) (by omega)))

/-- The least-index lexicographic argmin lies inside its window. -/
theorem lexArgmin_mem (key : ℕ → ℚ) (a : ℕ) : ∀ len, 1 ≤ len →
    a ≤ lexArgmin key a len ∧ lexArgmin key a len < a + len := by
  intro len
  induction len with
  | zero => omega
  | succ n ih =>
    intro _
    rw [lexArgmin]
    by_cases hn : 1 ≤ n
    · obtain ⟨ih1, ih2⟩ := ih hn
      by_cases hc : key (a + n) < key (lexArgmin key a n)
      · rw [if_pos hc]; omega
      · rw [if_neg hc]; omega
    · have hn0 : n = 0 := by omega
      subst hn0
      have hb : lexArgmin key a 0 = a := rfl
      rw [hb, Nat.add_zero, if_neg (lt_irrefl _)]
      exact ⟨le_refl a, by omega⟩

/-- The least-index lexicographic argmin is `hpOrd`-least on its window. -/
theorem lexArgmin_min (key : ℕ → ℚ) (a : ℕ) : ∀ len, 1 ≤ len →
    ∀ j, a ≤ j → j < a + len →
      hpOrd (key (lexArgmin key a len), lexArgmin key a len) (key j, j) := by
  intro len
  induction len with
  | zero => omega
  | succ n ih =>
    intro _ j hj1 hj2
    rw [lexArgmin]
    by_cases hn : 1 ≤ n
    · by_cases hc : key (a + n) < key (lexArgmin key a n)
      · rw [if_pos hc]
        rcases (by omega : j < a + n ∨ j = a + n) with hj | rfl
        · rcases ih hn j hj1 hj with hlt | ⟨heq, _⟩
          · exact Or.inl (hc.trans hlt)
          · exact Or.inl (heq ▸ hc)
        · exact hpOrd_refl _
      · rw [if_neg hc]
        rcases (by omega : j < a + n ∨ j = a + n) with hj | rfl
        · exact ih hn j hj1 hj
        · rcases lt_or_eq_of_le (not_lt.mp hc) with hlt | heq
          · exact Or.inl hlt
          · exact Or.inr ⟨heq, le_of_lt (lexArgmin_mem key a n hn).2⟩
    · have hn0 : n = 0 := by omega
      subst hn0
      have hja : j = a := by omega
      subst hja
      have hb : lexArgmin key j 0 = j := rfl
      rw [hb, Nat.add_zero, if_neg (lt_irrefl _)]
      exact hpOrd_refl _

/-- Reading the cleaned heap before processing row `p + k` yields exactly the
least-index extremum of the window `[k, k + p)`. -/
theorem aroonRead (key : ℕ → ℚ) (p : ℕ) (hp : 1 ≤ p) (k : ℕ) :
    ∃ tl, hclean (aroonHeap key p k) k =
      (key (lexArgmin key k p), lexArgmin key k p) :: tl := by
  have hsorted : List.Sorted hpOrd (hclean (aroonHeap key p k) k) :=
    hclean_sorted (aroonHeap_sorted key p k)
  obtain ⟨hA1, hA2⟩ := lexArgmin_mem key k p hp
  have hAin : (key (lexArgmin key k p), lexArgmin key k p) ∈
      hclean (aroonHeap key p k) k :=
    mem_hclean (aroonHeap_window key p hp k _ (by omega) (by omega)) hA1
  rcases hh : hclean (aroonHeap key p k) k with _ | ⟨e, tl⟩
  · rw [hh] at hAin; exact absurd hAin (by simp)
  · rw [hh] at hAin hsorted
    have he2 : k ≤ e.2 := hclean_head_ge hh
    have heheap : e ∈ aroonHeap key p k :=
      hclean_subset _ _ e (hh ▸ List.mem_cons_self e tl)
    obtain ⟨helt, hekey⟩ := aroonHeap_mem key p k e heheap
    have hee : e = (key e.2, e.2) := Prod.ext hekey rfl
    have hord1 : hpOrd e (key (lexArgmin key k p), lexArgmin key k p) := by
      rcases List.mem_cons.mp hAin with heq | htl
      · rw [heq]; exact hpOrd_refl _
      · exact List.rel_of_sorted_cons hsorted _ htl
    have hord2 : hpOrd (key (lexArgmin key k p), lexArgmin key k p) e := by
      rw [hee]
      exact lexArgmin_min key k p hp e.2 he2 (by omega)
    exact ⟨tl, by rw [hpOrd_antisymm hord2 hord1]⟩

/-- The Aroon output cell, characterised: `(p - (t - argExt)) / p * 100` where
`argExt` is the least index attaining the window extremum over rows
`[t - p, t - 1]` (the row `t` itself is pushed only after reading). -/
theorem aroonValAt_eq (key : ℕ → ℚ) (p n t : ℕ) (hp : 1 ≤ p) (h1 : p ≤ t)
    (h2 : t < n) :
    aroonValAt key p n t =
      some ((((p : ℚ) - ((t : ℚ) - ((lexArgmin key (t - p) p : ℕ) : ℚ))) / (p : ℚ)) * 100) := by
  obtain ⟨tl, htl⟩ := aroonRead key p hp (t - p)
  rw [aroonValAt, if_neg (by omega), htl]

end AroonLemmas

/-- C5 (amended): Aroon outputs.  For every in-range row `t ≥ period`,
`AroonUp[t] = (period - (t - argmaxIdx)) / period * 100` and
`AroonDn[t] = (period - (t - argminIdx)) / period * 100`, where `argmaxIdx`
(`argminIdx`) is the smallest index attaining the maximum High (minimum Low)
over the trailing window of `period` rows *ending at `t - 1`* — the row `t`
itself is excluded, because the loop pushes row `t` onto the heaps only after
reading them.  Both outputs lie in `[0, 100]`, and both columns are undefined
for `t < period`. -/
theorem c5_aroon_window (s : OHLC) (p t : ℕ) (hp : 1 ≤ p) (h1 : p ≤ t)
    (h2 : t < s.length) :
    aroonUp s p t =
      some ((((p : ℚ) - ((t : ℚ) -
        ((lexArgmin (fun j => -(highQ s j)) (t - p) p : ℕ) : ℚ))) / (p : ℚ)) * 100) ∧
    aroonDn s p t =
      some ((((p : ℚ) - ((t : ℚ) -
        ((lexArgmin (fun j => lowQ s j) (t - p) p : ℕ) : ℚ))) / (p : ℚ)) * 100) ∧
    (∀ v, aroonUp s p t = some v → 0 ≤ v ∧ v ≤ 100) ∧
    (∀ v, aroonDn s p t = some v → 0 ≤ v ∧ v ≤ 100) ∧
    (∀ u, u < p → aroonUp s p u = none ∧ aroonDn s p u = none) := by
  have hbound : ∀ key : ℕ → ℚ, ∀ v,
      aroonValAt key p s.length t = some v → 0 ≤ v ∧ v ≤ 100 := by
    intro key v hv
    rw [aroonValAt_eq key p s.length t hp h1 h2] at hv
    cases hv
    obtain ⟨hA1, hA2⟩ := lexArgmin_mem key (t - p) p hp
    have hA2t : lexArgmin key (t - p) p < t := by omega
    have c1 : ((lexArgmin key (t - p) p : ℕ) : ℚ) + 1 ≤ (t : ℚ) := by
      exact_mod_cast hA2t
    have c2 : (t : ℚ) ≤ ((lexArgmin key (t - p) p : ℕ) : ℚ) + (p : ℚ) := by
      exact_mod_cast (by omega : t ≤ lexArgmin key (t - p) p + p)
    have hppos : (0 : ℚ) < (p : ℚ) := by exact_mod_cast hp
    constructor
    · have hnum : 0 ≤ (p : ℚ) - ((t : ℚ) - ((lexArgmin key (t - p) p : ℕ) : ℚ)) := by
        linarith
      positivity
    · have hq : ((p : ℚ) - ((t : ℚ) - ((lexArgmin key (t - p) p : ℕ) : ℚ))) / (p : ℚ) ≤ 1 := by
        rw [div_le_one hppos]
        linarith
      nlinarith
  refine ⟨aroonValAt_eq _ p s.length t hp h1 h2,
    aroonValAt_eq _ p s.length t hp h1 h2, hbound _, hbound _, ?_⟩
  intro u hu
  constructor
  · rw [aroonUp, aroonValAt, if_pos (Or.inl hu)]
  · rw [aroonDn, aroonValAt, if_pos (Or.inl hu)]

/-- Counterexample to C5 as stated: on the series `serAroon` (High maximal at
the last row) with period 3, at row 3 the code reads the window before pushing
row 3, so AroonUp is 0; a window inclusive of row 3, as the claim states it,
would put the argmax at row 3 and give 100. -/
theorem c5_counterexample :
    aroonUp serAroon 3 3 = some 0 ∧ aroonUpSpecWin serAroon 3 3 = 100 ∧
      (0 : ℚ) ≠ 100 := by
  refine ⟨?_, ?_, by norm_num⟩
  · rw [aroonUp, aroonValAt_eq _ 3 _ 3 (by omega) (le_refl 3) (by norm_num [serAroon])]
    norm_num [lexArgmin, highQ, highAt, serAroon]
  · norm_num [aroonUpSpecWin, lexArgmin, highQ, highAt, serAroon]

/-- Witness for C5 (amended) at the concrete series `serAroon`, period 3,
row 3. -/
theorem c5_aroon_window_witness :
    1 ≤ 3 ∧ 3 ≤ 3 ∧ 3 < serAroon.length ∧
      aroonUp serAroon 3 3 =
        some ((((3 : ℚ) - ((3 : ℚ) -
          ((lexArgmin (fun j => -(highQ serAroon j)) (3 - 3) 3 : ℕ) : ℚ))) / (3 : ℚ)) * 100) :=
  ⟨by omega, le_refl 3, by norm_num [serAroon],
    (c5_aroon_window serAroon 3 3 (by omega) (le_refl 3) (by norm_num [serAroon])).1⟩

end FinData
